import Mathlib

/-!
Verification of the tree-filtering/sorting proxy-model engine in
`src/treeView.py` (classes `CustomSortFilterProxyModel`, `ProxyItem`,
`FlatSortProxyModel`).

The source tree supplied by the host model is embedded as `SNode` (an
element with an identity, one display value per column, and an ordered
child list).  The proxy tree built by `rebuildTree` is embedded as
`PNode`, whose `src` field records the stored `QModelIndex` (row and
internal pointer, embedded as `MIdx`).  The Qt regular-expression object
is opaque to the engine; it is embedded as `Regexp`, a match predicate
plus a capture function, and the wrapper functions `regex_match` /
`regex_capture` are translated directly.
-/

/-- Opaque embedding of a Qt regular-expression object: a match predicate
and a capture-group extractor, as used by the wrappers in the source. -/
structure Regexp where
  rmatch : String → Bool
  cap : Nat → String → String

/-- `regex_match(rx, text)` from the source: does the pattern occur. -/
def regex_match (rx : Regexp) (text : String) : Bool :=
  rx.rmatch text

/-- `regex_capture(rx, text, group)` from the source: the captured group
when the pattern occurs, `None` otherwise. -/
def regex_capture (rx : Regexp) (text : String) (group : Nat) : Option String :=
  if rx.rmatch text then some (rx.cap group text) else none

/-- The filter configuration stored on `CustomSortFilterProxyModel`
(`_filter_text`, `_filter_regexp`, `_filter_columns`, `_case_sensitive`,
`_exact_match`, `_keep_parent_if_child_matches`,
`_capture_filter_callback`). -/
structure FilterState where
  filter_text : String
  filter_regexp : Option Regexp
  filter_columns : List Nat
  case_sensitive : Bool
  exact_match : Bool
  keep_parent_if_child_matches : Bool
  capture_filter_callback : Option (Option String → Bool)

/-- The model's initial filter configuration (`__init__`). -/
def initialFilterState : FilterState :=
  { filter_text := ""
    filter_regexp := none
    filter_columns := []
    case_sensitive := false
    exact_match := false
    keep_parent_if_child_matches := false
    capture_filter_callback := none }

/-- `setFilterText(text, caseSensitive, exactMatch)`: stores the text and
flags and clears the stored regular expression. -/
def setFilterText (fs : FilterState) (text : String) (caseSensitive : Bool)
    (exactMatch : Bool) : FilterState :=
  { fs with
    filter_text := text
    filter_regexp := none
    case_sensitive := caseSensitive
    exact_match := exactMatch }

/-- `setFilterRegExp(regexp)`: stores the regular expression (and nothing
else; in particular the stored filter text is left unchanged). -/
def setFilterRegExp (fs : FilterState) (regexp : Regexp) : FilterState :=
  { fs with filter_regexp := some regexp }

/-- `setKeepParentIfChildMatches(flag)`. -/
def setKeepParentIfChildMatches (fs : FilterState) (flag : Bool) : FilterState :=
  { fs with keep_parent_if_child_matches := flag }

/-- A source-model element: an identity (the internal pointer of its
`QModelIndex`), its data per column (`None` when the model supplies no
value), and its ordered children. -/
inductive SNode : Type where
  | node (id : Nat) (vals : List (Option String)) (children : List SNode)

def SNode.id : SNode → Nat
  | .node i _ _ => i

def SNode.vals : SNode → List (Option String)
  | .node _ v _ => v

def SNode.children : SNode → List SNode
  | .node _ _ cs => cs

mutual

def SNode.beq : SNode → SNode → Bool
  | .node i v cs, .node i' v' cs' => i == i' && v == v' && SNode.beqList cs cs'
termination_by structural a _ => a

def SNode.beqList : List SNode → List SNode → Bool
  | [], [] => true
  | c :: cs, c' :: cs' => SNode.beq c c' && SNode.beqList cs cs'
  | _, _ => false
termination_by structural a _ => a

end

/-- Substring test on character lists (Python's `in` operator on str). -/
def subCharList : List Char → List Char → Bool
  | _, [] => true
  | [], _ :: _ => false
  | h :: hs, n :: ns => (List.isPrefixOf (n :: ns) (h :: hs)) || subCharList hs (n :: ns)

/-- Python `needle in hay` for strings. -/
def strContains (hay needle : String) : Bool :=
  subCharList hay.data needle.data

/-- Python `str.lower()`, character by character. -/
def strLower (s : String) : String :=
  ⟨s.data.map Char.toLower⟩

/-- `model.data(model.index(row, col, parent), role)` for an element:
the element's value at a column, `none` when out of range. -/
def valueAt (vals : List (Option String)) (col : Nat) : Option String :=
  vals.getD col none

/-- The columns tested by `filterAcceptsRow`: `_filter_columns` when
non-empty (Python truthiness), else all model columns. -/
def columnIndices (fs : FilterState) (ncols : Nat) : List Nat :=
  match fs.filter_columns with
  | [] => List.range ncols
  | c :: cs => c :: cs

/-- The regular-expression branch of `filterAcceptsRow`: some tested
column holds truthy data matched by the pattern, whose first capture
additionally satisfies the capture callback when one is set. -/
def acceptsByRegexp (fs : FilterState) (ncols : Nat) (rx : Regexp)
    (vals : List (Option String)) : Bool :=
  (columnIndices fs ncols).any fun col =>
    match valueAt vals col with
    | none => false
    | some s =>
      s != "" && regex_match rx s &&
        (match fs.capture_filter_callback with
         | none => true
         | some cb => cb (regex_capture rx s 1))

/-- The plain-text branch of `filterAcceptsRow`: empty filter text accepts
everything; otherwise some tested column holds truthy data containing
(or, with `_exact_match`, equal to) the text, case-folded unless
`_case_sensitive`. -/
def acceptsByText (fs : FilterState) (ncols : Nat)
    (vals : List (Option String)) : Bool :=
  if fs.filter_text = "" then true
  else
    let text := if fs.case_sensitive then fs.filter_text else strLower fs.filter_text
    (columnIndices fs ncols).any fun col =>
      match valueAt vals col with
      | none => false
      | some s =>
        s != "" &&
          (let value := if fs.case_sensitive then s else strLower s
           if fs.exact_match then value == text else strContains value text)

/-- `CustomSortFilterProxyModel.filterAcceptsRow(sourceIndex)` on a valid
index: the regular expression takes priority when set. -/
def filterAcceptsRow (fs : FilterState) (ncols : Nat)
    (vals : List (Option String)) : Bool :=
  match fs.filter_regexp with
  | some rx => acceptsByRegexp fs ncols rx vals
  | none => acceptsByText fs ncols vals

mutual

/-- `_isRowAcceptedRecursively(sourceIndex)`: the element itself is
accepted, or some row of its subtree is. -/
def isRowAcceptedRecursively (fs : FilterState) (ncols : Nat) : SNode → Bool
  | .node _ vals cs =>
    filterAcceptsRow fs ncols vals || anyAcceptedRec fs ncols cs
termination_by structural s => s

/-- The child loop of `_isRowAcceptedRecursively` over a row range. -/
def anyAcceptedRec (fs : FilterState) (ncols : Nat) : List SNode → Bool
  | [] => false
  | c :: cs => isRowAcceptedRecursively fs ncols c || anyAcceptedRec fs ncols cs
termination_by structural l => l

end

/-- A stored source `QModelIndex`: its row and its internal pointer
(the element identity). Column is always 0 for structural indexes. -/
structure MIdx where
  row : Nat
  id : Nat
deriving DecidableEq

/-- A `ProxyItem`: the stored source index plus the ordered proxy
children (the parent link is implicit in the tree structure). -/
inductive PNode : Type where
  | node (src : MIdx) (children : List PNode)

def PNode.src : PNode → MIdx
  | .node s _ => s

def PNode.children : PNode → List PNode
  | .node _ cs => cs

mutual

def PNode.beq : PNode → PNode → Bool
  | .node s cs, .node s' cs' => s == s' && PNode.beqList cs cs'
termination_by structural a _ => a

def PNode.beqList : List PNode → List PNode → Bool
  | [], [] => true
  | c :: cs, c' :: cs' => PNode.beq c c' && PNode.beqList cs cs'
  | _, _ => false
termination_by structural a _ => a

end

mutual

/-- One iteration of the `build` loop body inside `rebuildTree`, for the
source child at row `row` of its parent: accepted rows get a proxy item
and a recursive build; rejected rows either survive as a placeholder
(keep-parent mode, when some child subtree matches) or have their
matching child subtrees promoted in their place. -/
def buildOne (fs : FilterState) (ncols : Nat) (row : Nat) : SNode → List PNode
  | .node cid vals cs =>
    if filterAcceptsRow fs ncols vals then
      [PNode.node ⟨row, cid⟩ (buildList fs ncols 0 cs)]
    else
      if fs.keep_parent_if_child_matches then
        if anyAcceptedRec fs ncols cs then
          [PNode.node ⟨row, cid⟩ (buildList fs ncols 0 cs)]
        else []
      else
        promoteList fs ncols 0 cs
termination_by structural c => c

/-- The `build` loop of `rebuildTree` over the source rows of one parent,
`row` being the row of the first element of the list. -/
def buildList (fs : FilterState) (ncols : Nat) (row : Nat) : List SNode → List PNode
  | [] => []
  | c :: cs => buildOne fs ncols row c ++ buildList fs ncols (row + 1) cs
termination_by structural l => l

/-- The promote-mode child loop of `build`: each child subtree containing
an accepted row is spliced, with its own recursive build, in place of its
rejected parent. -/
def promoteList (fs : FilterState) (ncols : Nat) (row : Nat) : List SNode → List PNode
  | [] => []
  | SNode.node cid vals cs :: rest =>
    (if isRowAcceptedRecursively fs ncols (.node cid vals cs) then
      [PNode.node ⟨row, cid⟩ (buildList fs ncols 0 cs)]
    else []) ++ promoteList fs ncols (row + 1) rest
termination_by structural l => l

end

/-- `rebuildTree`: discard the proxy tree and rebuild it from the source
roots (the children of the invisible root index). -/
def rebuildTree (fs : FilterState) (ncols : Nat) (roots : List SNode) : List PNode :=
  buildList fs ncols 0 roots

mutual

/-- All elements of a source subtree, the subtree root first. -/
def elemsOf : SNode → List SNode
  | .node i v cs => .node i v cs :: elemsForest cs
termination_by structural c => c

/-- All elements of a source forest. -/
def elemsForest : List SNode → List SNode
  | [] => []
  | c :: cs => elemsOf c ++ elemsForest cs
termination_by structural l => l

end

mutual

/-- Does a proxy node, or one of its descendants, reference the source
element with identity `i`. -/
def appearsNode (i : Nat) : PNode → Bool
  | .node s cs => s.id == i || appearsIn i cs
termination_by structural p => p

/-- Does any node of a proxy forest reference the source element with
identity `i`. -/
def appearsIn (i : Nat) : List PNode → Bool
  | [] => false
  | c :: cs => appearsNode i c || appearsIn i cs
termination_by structural l => l

end

/-- The shape of a derived or source tree, reduced to element
identities: used to compare trees node-for-node, structure and sibling
order included. -/
inductive IdTree : Type where
  | node (id : Nat) (children : List IdTree)

mutual

def IdTree.beq : IdTree → IdTree → Bool
  | .node i cs, .node i' cs' => i == i' && IdTree.beqList cs cs'
termination_by structural a _ => a

def IdTree.beqList : List IdTree → List IdTree → Bool
  | [], [] => true
  | c :: cs, c' :: cs' => IdTree.beq c c' && IdTree.beqList cs cs'
  | _, _ => false
termination_by structural a _ => a

end

mutual

def srcIdTree : SNode → IdTree
  | .node i _ cs => .node i (srcIdForest cs)
termination_by structural c => c

def srcIdForest : List SNode → List IdTree
  | [] => []
  | c :: cs => srcIdTree c :: srcIdForest cs
termination_by structural l => l

end

mutual

def pIdTree : PNode → IdTree
  | .node s cs => .node s.id (pIdForest cs)
termination_by structural p => p

def pIdForest : List PNode → List IdTree
  | [] => []
  | c :: cs => pIdTree c :: pIdForest cs
termination_by structural l => l

end

mutual

/-- Resolve a stored internal pointer to its source element. -/
def findByIdNode (i : Nat) : SNode → Option SNode
  | .node cid v cs =>
    if cid = i then some (.node cid v cs) else findById i cs
termination_by structural c => c

def findById (i : Nat) : List SNode → Option SNode
  | [] => none
  | c :: cs =>
    match findByIdNode i c with
    | some e => some e
    | none => findById i cs
termination_by structural l => l

end

/-- The proxy model's `data` for a proxy node (role `DisplayRole`,
structural column 0): `sourceModel().data(item.sourceIndex())`, i.e. the
referenced source element's own value. -/
def proxyData (roots : List SNode) (p : PNode) : Option String :=
  match findById p.src.id roots with
  | some e => valueAt e.vals 0
  | none => none

mutual

/-- `findItemBySource` inside `mapFromSource`: depth-first search for the
first proxy item whose stored source index equals the target, the item
itself tested before its children.  Returns the position path of the
found item. -/
def findSrcNode (t : MIdx) : PNode → Option (List Nat)
  | .node s cs => if s = t then some [] else findSrcList t 0 cs
termination_by structural p => p

def findSrcList (t : MIdx) (i : Nat) : List PNode → Option (List Nat)
  | [] => none
  | c :: cs =>
    match findSrcNode t c with
    | some p => some (i :: p)
    | none => findSrcList t (i + 1) cs
termination_by structural l => l

end

/-- `mapFromSource` over the whole proxy forest (the root item's stored
index is `None` and never equals a valid source index, so the search
effectively starts at the root's children). -/
def findSrcForest (t : MIdx) (f : List PNode) : Option (List Nat) :=
  findSrcList t 0 f

mutual

/-- Apply `g` to the child list of the proxy node addressed by a position
path. -/
def modNodeAt (g : List PNode → List PNode) : PNode → List Nat → PNode
  | .node s cs, [] => .node s (g cs)
  | .node s cs, i :: p => .node s (modListAt g cs (i :: p))
termination_by structural a _ => a

def modListAt (g : List PNode → List PNode) : List PNode → List Nat → List PNode
  | f, [] => f
  | [], _ :: _ => []
  | c :: cs, 0 :: p => modNodeAt g c p :: cs
  | c :: cs, (i + 1) :: p => c :: modListAt g cs (i :: p)
termination_by structural a _ => a

end

/-- The row loop of `_onRowsInserted`: for each newly inserted source row
in range that is accepted recursively, a fresh childless `ProxyItem`
referencing it (appended, in row order, to the mapped parent's children). -/
def newInsertNodes (fs : FilterState) (ncols : Nat)
    (parentChildren : List SNode) (start fin : Nat) : List PNode :=
  (List.range' start (fin + 1 - start)).filterMap fun row =>
    match parentChildren[row]? with
    | none => none
    | some c =>
      if isRowAcceptedRecursively fs ncols c then
        some (PNode.node ⟨row, c.id⟩ [])
      else none

/-- `_onRowsInserted(parent, start, end)`, acting on the proxy forest.
`roots` is the source forest after the insertion (the signal is emitted
by `endInsertRows`).  The source parent is mapped via `mapFromSource`;
when the parent index is invalid or unmapped, `getItem` falls back to the
proxy root, so the new items are appended at top level. -/
def onRowsInserted (fs : FilterState) (ncols : Nat) (roots : List SNode)
    (proxy : List PNode) (parent : Option MIdx) (start fin : Nat) : List PNode :=
  let parentChildren :=
    match parent with
    | none => roots
    | some m =>
      match findById m.id roots with
      | some e => e.children
      | none => []
  let nn := newInsertNodes fs ncols parentChildren start fin
  match parent with
  | none => proxy ++ nn
  | some m =>
    match findSrcForest m proxy with
    | none => proxy ++ nn
    | some p => modListAt (fun cs => cs ++ nn) proxy p

/-- The row loop of `_onRowsRemoved`: delete child entries at the source
rows, highest row first, skipping rows beyond the current child count.
The counter `k` is the number of rows left to process, so the row handled
first is `start + k - 1 = fin`. -/
def delRangeDesc (cs : List PNode) (start : Nat) : Nat → List PNode
  | 0 => cs
  | k + 1 =>
    let row := start + k
    let cs' := if row < cs.length then cs.eraseIdx row else cs
    delRangeDesc cs' start k

/-- `_onRowsRemoved(parent, start, end)`, acting on the proxy forest,
with the same parent mapping (and root fallback) as the insert handler. -/
def onRowsRemoved (proxy : List PNode) (parent : Option MIdx)
    (start fin : Nat) : List PNode :=
  match parent with
  | none => delRangeDesc proxy start (fin + 1 - start)
  | some m =>
    match findSrcForest m proxy with
    | none => delRangeDesc proxy start (fin + 1 - start)
    | some p => modListAt (fun cs => delRangeDesc cs start (fin + 1 - start)) proxy p

mutual

/-- A proxy node together with every node reachable below it. -/
def allPNodesOf : PNode → List PNode
  | .node s cs => .node s cs :: allPNodes cs
termination_by structural p => p

/-- Every proxy node reachable from the proxy root. -/
def allPNodes : List PNode → List PNode
  | [] => []
  | c :: cs => allPNodesOf c ++ allPNodes cs
termination_by structural l => l

end

/-- `ProxyItem.child(row)`: the child at a row of a proxy node. -/
def childAt (q : PNode) (row : Nat) : Option PNode :=
  q.children[row]?

/-- Python `list.index` on the proxy child list: position of the first
equal entry, if any. -/
def idxOfAux : List PNode → PNode → Option Nat
  | [], _ => none
  | c :: cs, p => if PNode.beq c p then some 0 else (idxOfAux cs p).map (· + 1)

/-- `ProxyItem.row()`: the node's position in its parent's child list
(`parent.children().index(self)`, with the `except` branch yielding 0). -/
def rowOf (p q : PNode) : Nat :=
  (idxOfAux q.children p).getD 0

mutual

/-- One step of `_collect_all_indexes`: the element itself (appended
before the recursive call), then its subtree in pre-order. -/
def collectNode : SNode → List SNode
  | .node i v cs => .node i v cs :: collectAll cs
termination_by structural c => c

/-- `FlatSortProxyModel._collect_all_indexes`: pre-order collection of
every source element, hierarchy ignored. -/
def collectAll : List SNode → List SNode
  | [] => []
  | c :: cs => collectNode c ++ collectAll cs
termination_by structural l => l

end

/-- The sort key of `_sort_flat_indexes`: `str(model.data(index))`, where
a missing value renders as Python's `str(None)`. -/
def sortKey (vals : List (Option String)) (col : Nat) : String :=
  match valueAt vals col with
  | some s => s
  | none => "None"

/-- The comparison used by Python's stable `list.sort` with that key. -/
def pyLe (col : Nat) (a b : SNode) : Bool :=
  decide (sortKey a.vals col ≤ sortKey b.vals col)

/-- `invalidate` of `FlatSortProxyModel`: collect all elements in
pre-order, then stable-sort by the display value at the sort column
(CPython's `reverse=True` reverses, sorts ascending, reverses again). -/
def sortFlat (roots : List SNode) (col : Nat) (descending : Bool) : List SNode :=
  let l := collectAll roots
  if descending then
    (List.mergeSort l.reverse (pyLe col)).reverse
  else
    List.mergeSort l (pyLe col)

/-! Concrete data used by the counterexamples and witnesses. -/

/-- The concrete scenario's source tree: root with children A (children
A1, A2) and B (child B1), one display column each. -/
def treeScenario : List SNode :=
  [SNode.node 1 [some "A"] [SNode.node 2 [some "A1"] [], SNode.node 3 [some "A2"] []],
   SNode.node 4 [some "B"] [SNode.node 5 [some "B1"] []]]

/-- Filter text "A1", case-insensitive substring, promote mode. -/
def fsScenario : FilterState :=
  setFilterText initialFilterState "A1" false false

/-- The same configuration in keep-ancestor mode. -/
def fsScenarioKeep : FilterState :=
  setKeepParentIfChildMatches fsScenario true

/-- A three-level chain with a single accepted leaf: root → E → C → D,
where only D's value matches the filter. -/
def treeChain : List SNode :=
  [SNode.node 10 [some "E"] [SNode.node 11 [some "C"] [SNode.node 12 [some "D"] []]]]

def fsChain : FilterState :=
  setFilterText initialFilterState "D" false false

/-- A regular expression matching any string and capturing it whole. -/
def rxAll : Regexp :=
  ⟨fun _ => true, fun _ s => s⟩

/-- An always-accepting filter state (no pattern, empty text). -/
def fsEmpty : FilterState := initialFilterState

mutual

theorem snodeBeq_iff : ∀ a b : SNode, SNode.beq a b = true ↔ a = b
  | .node i v cs, .node i' v' cs' => by
    simp [SNode.beq, snodeBeqList_iff cs cs', and_assoc]

theorem snodeBeqList_iff : ∀ a b : List SNode, SNode.beqList a b = true ↔ a = b
  | [], [] => by simp [SNode.beqList]
  | [], _ :: _ => by simp [SNode.beqList]
  | _ :: _, [] => by simp [SNode.beqList]
  | c :: cs, c' :: cs' => by
    simp [SNode.beqList, snodeBeq_iff c c', snodeBeqList_iff cs cs']

end

instance : DecidableEq SNode := fun a b =>
  decidable_of_iff (SNode.beq a b = true) (snodeBeq_iff a b)

mutual

theorem pnodeBeq_iff : ∀ a b : PNode, PNode.beq a b = true ↔ a = b
  | .node s cs, .node s' cs' => by
    simp [PNode.beq, pnodeBeqList_iff cs cs']

theorem pnodeBeqList_iff : ∀ a b : List PNode, PNode.beqList a b = true ↔ a = b
  | [], [] => by simp [PNode.beqList]
  | [], _ :: _ => by simp [PNode.beqList]
  | _ :: _, [] => by simp [PNode.beqList]
  | c :: cs, c' :: cs' => by
    simp [PNode.beqList, pnodeBeq_iff c c', pnodeBeqList_iff cs cs']

end

instance : DecidableEq PNode := fun a b =>
  decidable_of_iff (PNode.beq a b = true) (pnodeBeq_iff a b)

mutual

theorem idtreeBeq_iff : ∀ a b : IdTree, IdTree.beq a b = true ↔ a = b
  | .node i cs, .node i' cs' => by
    simp [IdTree.beq, idtreeBeqList_iff cs cs']

theorem idtreeBeqList_iff : ∀ a b : List IdTree, IdTree.beqList a b = true ↔ a = b
  | [], [] => by simp [IdTree.beqList]
  | [], _ :: _ => by simp [IdTree.beqList]
  | _ :: _, [] => by simp [IdTree.beqList]
  | c :: cs, c' :: cs' => by
    simp [IdTree.beqList, idtreeBeq_iff c c', idtreeBeqList_iff cs cs']

end

instance : DecidableEq IdTree := fun a b =>
  decidable_of_iff (IdTree.beq a b = true) (idtreeBeq_iff a b)

/-! Concrete data for the incremental-insert claim: the source tree before
and after prepending element A (id 2) in front of B (id 1). -/

def treeBeforeInsert : List SNode := [SNode.node 1 [some "B"] []]

def treeAfterInsert : List SNode :=
  [SNode.node 2 [some "A"] [], SNode.node 1 [some "B"] []]

/-- A two-column filter state with the match-all pattern and a capture
callback accepting exactly the capture "ok". -/
def fsCapture : FilterState :=
  { filter_text := ""
    filter_regexp := some rxAll
    filter_columns := [0, 1]
    case_sensitive := false
    exact_match := false
    keep_parent_if_child_matches := false
    capture_filter_callback := some (fun o => o == some "ok") }

/-- The proxy model's mutable structural state: the children of
`_root_item`. -/
structure ProxyState where
  root_children : List PNode

/-- `rebuildTree` as a transition on the model state: the previous proxy
tree is discarded (`self._root_item = ProxyItem()`) and rebuilt from the
source alone. -/
def rebuildTreeS (fs : FilterState) (ncols : Nat) (roots : List SNode)
    (_s : ProxyState) : ProxyState :=
  ⟨rebuildTree fs ncols roots⟩

/-! General lemmas about the embedded engine. -/

theorem appearsIn_append (i : Nat) (a b : List PNode) :
    appearsIn i (a ++ b) = (appearsIn i a || appearsIn i b) := by
  induction a with
  | nil => simp [appearsIn]
  | cons c cs ih => simp [appearsIn, ih, Bool.or_assoc]

theorem pIdForest_append (a b : List PNode) :
    pIdForest (a ++ b) = pIdForest a ++ pIdForest b := by
  induction a with
  | nil => simp [pIdForest]
  | cons c cs ih => simp [pIdForest, ih]

theorem accepted_accRec (fs : FilterState) (ncols : Nat) (E : SNode)
    (h : filterAcceptsRow fs ncols E.vals = true) :
    isRowAcceptedRecursively fs ncols E = true := by
  cases E with
  | node i v cs => rw [isRowAcceptedRecursively]; simp [SNode.vals] at h; simp [h]

mutual

theorem accRec_of_mem_elemsOf (fs : FilterState) (ncols : Nat) :
    ∀ (c E : SNode), E ∈ elemsOf c → isRowAcceptedRecursively fs ncols E = true →
      isRowAcceptedRecursively fs ncols c = true
  | .node i v cs, E, hE, hA => by
    rw [elemsOf] at hE
    rcases List.mem_cons.mp hE with h | h
    · rw [← h]; exact hA
    · have := anyAccepted_of_mem fs ncols cs E h hA
      rw [isRowAcceptedRecursively]
      simp [this]

theorem anyAccepted_of_mem (fs : FilterState) (ncols : Nat) :
    ∀ (cs : List SNode) (E : SNode), E ∈ elemsForest cs →
      isRowAcceptedRecursively fs ncols E = true → anyAcceptedRec fs ncols cs = true
  | [], E, hE, _ => by simp [elemsForest] at hE
  | c :: cs, E, hE, hA => by
    rw [elemsForest] at hE
    rcases List.mem_append.mp hE with h | h
    · have := accRec_of_mem_elemsOf fs ncols c E h hA
      rw [anyAcceptedRec]; simp [this]
    · have := anyAccepted_of_mem fs ncols cs E h hA
      rw [anyAcceptedRec]; simp [this]

end

mutual

theorem build_sound_one (fs : FilterState) (ncols : Nat) :
    ∀ (row : Nat) (c : SNode) (i : Nat),
      appearsIn i (buildOne fs ncols row c) = true →
      ∃ E ∈ elemsOf c, E.id = i ∧ isRowAcceptedRecursively fs ncols E = true
  | row, .node cid v cs, i, h => by
    rw [buildOne] at h
    by_cases hacc : filterAcceptsRow fs ncols v = true
    · rw [if_pos hacc] at h
      simp only [appearsIn, appearsNode, Bool.or_false, Bool.or_eq_true, beq_iff_eq] at h
      rcases h with h | h
      · refine ⟨SNode.node cid v cs, ?_, h, ?_⟩
        · rw [elemsOf]; exact List.mem_cons_self _ _
        · rw [isRowAcceptedRecursively]; simp [hacc]
      · obtain ⟨E, hEm, hid, hacc'⟩ := build_sound_list fs ncols 0 cs i h
        refine ⟨E, ?_, hid, hacc'⟩
        rw [elemsOf]; exact List.mem_cons_of_mem _ hEm
    · rw [if_neg hacc] at h
      by_cases hkeep : fs.keep_parent_if_child_matches = true
      · rw [if_pos hkeep] at h
        by_cases hany : anyAcceptedRec fs ncols cs = true
        · rw [if_pos hany] at h
          simp only [appearsIn, appearsNode, Bool.or_false, Bool.or_eq_true, beq_iff_eq] at h
          rcases h with h | h
          · refine ⟨SNode.node cid v cs, ?_, h, ?_⟩
            · rw [elemsOf]; exact List.mem_cons_self _ _
            · rw [isRowAcceptedRecursively]; simp [hany]
          · obtain ⟨E, hEm, hid, hacc'⟩ := build_sound_list fs ncols 0 cs i h
            refine ⟨E, ?_, hid, hacc'⟩
            rw [elemsOf]; exact List.mem_cons_of_mem _ hEm
        · rw [if_neg hany] at h
          simp [appearsIn] at h
      · rw [if_neg hkeep] at h
        obtain ⟨E, hEm, hid, hacc'⟩ := build_sound_promote fs ncols 0 cs i h
        refine ⟨E, ?_, hid, hacc'⟩
        rw [elemsOf]; exact List.mem_cons_of_mem _ hEm

theorem build_sound_list (fs : FilterState) (ncols : Nat) :
    ∀ (row : Nat) (cs : List SNode) (i : Nat),
      appearsIn i (buildList fs ncols row cs) = true →
      ∃ E ∈ elemsForest cs, E.id = i ∧ isRowAcceptedRecursively fs ncols E = true
  | _row, [], i, h => by simp [buildList, appearsIn] at h
  | row, c :: cs, i, h => by
    rw [buildList, appearsIn_append] at h
    simp only [Bool.or_eq_true] at h
    rcases h with h | h
    · obtain ⟨E, hEm, hid, hacc'⟩ := build_sound_one fs ncols row c i h
      refine ⟨E, ?_, hid, hacc'⟩
      rw [elemsForest]; exact List.mem_append_left _ hEm
    · obtain ⟨E, hEm, hid, hacc'⟩ := build_sound_list fs ncols (row + 1) cs i h
      refine ⟨E, ?_, hid, hacc'⟩
      rw [elemsForest]; exact List.mem_append_right _ hEm

theorem build_sound_promote (fs : FilterState) (ncols : Nat) :
    ∀ (row : Nat) (cs : List SNode) (i : Nat),
      appearsIn i (promoteList fs ncols row cs) = true →
      ∃ E ∈ elemsForest cs, E.id = i ∧ isRowAcceptedRecursively fs ncols E = true
  | _row, [], i, h => by simp [promoteList, appearsIn] at h
  | row, .node cid v cs :: rest, i, h => by
    rw [promoteList, appearsIn_append] at h
    simp only [Bool.or_eq_true] at h
    rcases h with h | h
    · by_cases hrec : isRowAcceptedRecursively fs ncols (SNode.node cid v cs) = true
      · rw [if_pos hrec] at h
        simp only [appearsIn, appearsNode, Bool.or_false, Bool.or_eq_true, beq_iff_eq] at h
        rcases h with h | h
        · refine ⟨SNode.node cid v cs, ?_, h, hrec⟩
          rw [elemsForest, elemsOf]
          exact List.mem_append_left _ (List.mem_cons_self _ _)
        · obtain ⟨E, hEm, hid, hacc'⟩ := build_sound_list fs ncols 0 cs i h
          refine ⟨E, ?_, hid, hacc'⟩
          rw [elemsForest, elemsOf]
          exact List.mem_append_left _ (List.mem_cons_of_mem _ hEm)
      · rw [if_neg hrec] at h
        simp [appearsIn] at h
    · obtain ⟨E, hEm, hid, hacc'⟩ := build_sound_promote fs ncols (row + 1) rest i h
      refine ⟨E, ?_, hid, hacc'⟩
      rw [elemsForest]; exact List.mem_append_right _ hEm

end

mutual

theorem build_complete_one (fs : FilterState) (ncols : Nat) :
    ∀ (row : Nat) (c E : SNode), E ∈ elemsOf c →
      filterAcceptsRow fs ncols E.vals = true →
      appearsIn E.id (buildOne fs ncols row c) = true
  | row, .node cid v cs, E, hE, hacc => by
    rw [elemsOf] at hE
    rcases List.mem_cons.mp hE with h | h
    · subst h
      rw [buildOne, if_pos (by simpa [SNode.vals] using hacc)]
      simp [appearsIn, appearsNode, SNode.id]
    · rw [buildOne]
      by_cases hc : filterAcceptsRow fs ncols v = true
      · rw [if_pos hc]
        simp only [appearsIn, appearsNode, Bool.or_false, Bool.or_eq_true]
        exact Or.inr (build_complete_list fs ncols 0 cs E h hacc)
      · rw [if_neg hc]
        by_cases hkeep : fs.keep_parent_if_child_matches = true
        · rw [if_pos hkeep]
          have hany : anyAcceptedRec fs ncols cs = true :=
            anyAccepted_of_mem fs ncols cs E h (accepted_accRec fs ncols E hacc)
          rw [if_pos hany]
          simp only [appearsIn, appearsNode, Bool.or_false, Bool.or_eq_true]
          exact Or.inr (build_complete_list fs ncols 0 cs E h hacc)
        · rw [if_neg hkeep]
          exact build_complete_promote fs ncols 0 cs E h hacc

theorem build_complete_list (fs : FilterState) (ncols : Nat) :
    ∀ (row : Nat) (cs : List SNode) (E : SNode), E ∈ elemsForest cs →
      filterAcceptsRow fs ncols E.vals = true →
      appearsIn E.id (buildList fs ncols row cs) = true
  | _row, [], E, hE, _ => by simp [elemsForest] at hE
  | row, c :: cs, E, hE, hacc => by
    rw [elemsForest] at hE
    rw [buildList, appearsIn_append]
    simp only [Bool.or_eq_true]
    rcases List.mem_append.mp hE with h | h
    · exact Or.inl (build_complete_one fs ncols row c E h hacc)
    · exact Or.inr (build_complete_list fs ncols (row + 1) cs E h hacc)

theorem build_complete_promote (fs : FilterState) (ncols : Nat) :
    ∀ (row : Nat) (cs : List SNode) (E : SNode), E ∈ elemsForest cs →
      filterAcceptsRow fs ncols E.vals = true →
      appearsIn E.id (promoteList fs ncols row cs) = true
  | _row, [], E, hE, _ => by simp [elemsForest] at hE
  | row, .node cid v cs :: rest, E, hE, hacc => by
    rw [elemsForest] at hE
    rw [promoteList, appearsIn_append]
    simp only [Bool.or_eq_true]
    rcases List.mem_append.mp hE with h | h
    · left
      have hrec : isRowAcceptedRecursively fs ncols (SNode.node cid v cs) = true :=
        accRec_of_mem_elemsOf fs ncols _ E h (accepted_accRec fs ncols E hacc)
      rw [if_pos hrec]
      rw [elemsOf] at h
      simp only [appearsIn, appearsNode, Bool.or_false, Bool.or_eq_true, beq_iff_eq]
      rcases List.mem_cons.mp h with h' | h'
      · subst h'; simp [SNode.id]
      · exact Or.inr (build_complete_list fs ncols 0 cs E h' hacc)
    · exact Or.inr (build_complete_promote fs ncols (row + 1) rest E h hacc)

end

mutual

theorem build_keep_complete_one (fs : FilterState) (ncols : Nat)
    (hkeep : fs.keep_parent_if_child_matches = true) :
    ∀ (row : Nat) (c E : SNode), E ∈ elemsOf c →
      isRowAcceptedRecursively fs ncols E = true →
      appearsIn E.id (buildOne fs ncols row c) = true
  | row, .node cid v cs, E, hE, hrec => by
    rw [elemsOf] at hE
    rw [buildOne]
    rcases List.mem_cons.mp hE with h | h
    · subst h
      rw [isRowAcceptedRecursively] at hrec
      simp only [Bool.or_eq_true] at hrec
      rcases hrec with h' | h'
      · rw [if_pos (by simpa [SNode.vals] using h')]
        simp [appearsIn, appearsNode, SNode.id]
      · by_cases hacc : filterAcceptsRow fs ncols v = true
        · rw [if_pos hacc]; simp [appearsIn, appearsNode, SNode.id]
        · rw [if_neg hacc, if_pos hkeep, if_pos h']
          simp [appearsIn, appearsNode, SNode.id]
    · have hany : anyAcceptedRec fs ncols cs = true :=
        anyAccepted_of_mem fs ncols cs E h hrec
      by_cases hacc : filterAcceptsRow fs ncols v = true
      · rw [if_pos hacc]
        simp only [appearsIn, appearsNode, Bool.or_false, Bool.or_eq_true]
        exact Or.inr (build_keep_complete_list fs ncols hkeep 0 cs E h hrec)
      · rw [if_neg hacc, if_pos hkeep, if_pos hany]
        simp only [appearsIn, appearsNode, Bool.or_false, Bool.or_eq_true]
        exact Or.inr (build_keep_complete_list fs ncols hkeep 0 cs E h hrec)

theorem build_keep_complete_list (fs : FilterState) (ncols : Nat)
    (hkeep : fs.keep_parent_if_child_matches = true) :
    ∀ (row : Nat) (cs : List SNode) (E : SNode), E ∈ elemsForest cs →
      isRowAcceptedRecursively fs ncols E = true →
      appearsIn E.id (buildList fs ncols row cs) = true
  | _row, [], E, hE, _ => by simp [elemsForest] at hE
  | row, c :: cs, E, hE, hrec => by
    rw [elemsForest] at hE
    rw [buildList, appearsIn_append]
    simp only [Bool.or_eq_true]
    rcases List.mem_append.mp hE with h | h
    · exact Or.inl (build_keep_complete_one fs ncols hkeep row c E h hrec)
    · exact Or.inr (build_keep_complete_list fs ncols hkeep (row + 1) cs E h hrec)

end

theorem elems_id_inj (roots : List SNode)
    (hnd : ((elemsForest roots).map SNode.id).Nodup)
    {a b : SNode} (ha : a ∈ elemsForest roots) (hb : b ∈ elemsForest roots)
    (hab : a.id = b.id) : a = b :=
  List.inj_on_of_nodup_map hnd ha hb hab

mutual

theorem findByIdNode_sound :
    ∀ (c : SNode) (i : Nat) (e : SNode), findByIdNode i c = some e →
      e ∈ elemsOf c ∧ e.id = i
  | .node cid v cs, i, e, h => by
    rw [findByIdNode] at h
    by_cases hc : cid = i
    · rw [if_pos hc] at h
      cases h
      exact ⟨by rw [elemsOf]; exact List.mem_cons_self _ _, by simpa [SNode.id] using hc⟩
    · rw [if_neg hc] at h
      obtain ⟨hm, hi⟩ := findById_sound cs i e h
      exact ⟨by rw [elemsOf]; exact List.mem_cons_of_mem _ hm, hi⟩

theorem findById_sound :
    ∀ (cs : List SNode) (i : Nat) (e : SNode), findById i cs = some e →
      e ∈ elemsForest cs ∧ e.id = i
  | [], i, e, h => by simp [findById] at h
  | c :: cs, i, e, h => by
    rw [findById] at h
    cases hfc : findByIdNode i c with
    | some e' =>
      rw [hfc] at h
      have he : e' = e := Option.some.inj h
      obtain ⟨hm, hi⟩ := findByIdNode_sound c i e' hfc
      rw [← he]
      exact ⟨by rw [elemsForest]; exact List.mem_append_left _ hm, hi⟩
    | none =>
      rw [hfc] at h
      obtain ⟨hm, hi⟩ := findById_sound cs i e h
      exact ⟨by rw [elemsForest]; exact List.mem_append_right _ hm, hi⟩

end

mutual

theorem findByIdNode_found :
    ∀ (c E : SNode), E ∈ elemsOf c → ∃ e, findByIdNode E.id c = some e
  | .node cid v cs, E, hE => by
    rw [findByIdNode]
    by_cases hc : cid = E.id
    · rw [if_pos hc]; exact ⟨_, rfl⟩
    · rw [if_neg hc]
      rw [elemsOf] at hE
      rcases List.mem_cons.mp hE with h | h
      · subst h
        simp [SNode.id] at hc
      · exact findById_found cs E h

theorem findById_found :
    ∀ (cs : List SNode) (E : SNode), E ∈ elemsForest cs →
      ∃ e, findById E.id cs = some e
  | [], E, hE => by simp [elemsForest] at hE
  | c :: cs, E, hE => by
    rw [elemsForest] at hE
    rw [findById]
    cases hfc : findByIdNode E.id c with
    | some e' => exact ⟨e', rfl⟩
    | none =>
      rcases List.mem_append.mp hE with h | h
      · obtain ⟨e, he⟩ := findByIdNode_found c E h
        rw [he] at hfc; cases hfc
      · exact findById_found cs E h

end

/-- Under globally distinct element identities, resolving an element's
identity finds that element itself. -/
theorem findById_unique (roots : List SNode)
    (hnd : ((elemsForest roots).map SNode.id).Nodup)
    (E : SNode) (hE : E ∈ elemsForest roots) :
    findById E.id roots = some E := by
  obtain ⟨e, he⟩ := findById_found roots E hE
  obtain ⟨hm, hi⟩ := findById_sound roots E.id e he
  rw [he, elems_id_inj roots hnd hm hE hi]

/-- C1 (counterexample): in promote mode, on the chain root → E → C → D
where only D matches, element E (id 10) has an accepted strict descendant
yet is absent from the derived tree — refuting the claimed biconditional
"E appears iff E is accepted or some strict descendant is accepted" — and
the rejected intermediate element C (id 11) nevertheless appears,
refuting "rejected intermediate levels are skipped". -/
theorem promote_soundness_counterexample :
    anyAcceptedRec fsChain 1
        [SNode.node 11 [some "C"] [SNode.node 12 [some "D"] []]] = true ∧
    appearsIn 10 (rebuildTree fsChain 1 treeChain) = false ∧
    filterAcceptsRow fsChain 1 [some "C"] = false ∧
    appearsIn 11 (rebuildTree fsChain 1 treeChain) = true := by decide

/-- C1 (amended): in promote mode (keep-parent flag false), for every
source element E of a source forest with distinct element identities:
if E appears in the derived tree then E is accepted or some strict
descendant of E is accepted; and if E is accepted then E appears.  (The
original biconditional and the absence of all rejected intermediate
levels fail: rejected levels are skipped one at a time, so a rejected
element with an accepted descendant may either appear or be elided.) -/
theorem promote_soundness_amended (fs : FilterState) (ncols : Nat)
    (roots : List SNode) (_hk : fs.keep_parent_if_child_matches = false)
    (hnd : ((elemsForest roots).map SNode.id).Nodup)
    (E : SNode) (hE : E ∈ elemsForest roots) :
    (appearsIn E.id (rebuildTree fs ncols roots) = true →
      isRowAcceptedRecursively fs ncols E = true) ∧
    (filterAcceptsRow fs ncols E.vals = true →
      appearsIn E.id (rebuildTree fs ncols roots) = true) := by
  constructor
  · intro h
    obtain ⟨E', hE', hid, hacc⟩ := build_sound_list fs ncols 0 roots E.id h
    rwa [elems_id_inj roots hnd hE' hE hid] at hacc
  · intro h
    exact build_complete_list fs ncols 0 roots E hE h

/-- Witness for C1 at a concrete input: D (id 12) is accepted and indeed
appears after the promote-mode rebuild of the chain. -/
theorem promote_soundness_amended_witness :
    filterAcceptsRow fsChain 1 (SNode.node 12 [some "D"] []).vals = true ∧
    appearsIn (SNode.node 12 [some "D"] []).id (rebuildTree fsChain 1 treeChain) = true :=
  ⟨by decide,
   (promote_soundness_amended fsChain 1 treeChain (by decide) (by decide)
      (SNode.node 12 [some "D"] []) (by decide)).2 (by decide)⟩

/-- C2: in keep-ancestor mode (keep-parent flag true), for every source
element E of a source forest with distinct element identities, E appears
in the derived tree iff E is accepted or some strict descendant of E is
accepted; and every proxy node referencing E displays E's own original
value (the proxy `data` resolves E's stored index back to E itself). -/
theorem keep_soundness (fs : FilterState) (ncols : Nat)
    (roots : List SNode) (hk : fs.keep_parent_if_child_matches = true)
    (hnd : ((elemsForest roots).map SNode.id).Nodup)
    (E : SNode) (hE : E ∈ elemsForest roots) :
    (appearsIn E.id (rebuildTree fs ncols roots) = true ↔
      isRowAcceptedRecursively fs ncols E = true) ∧
    (∀ (r : Nat) (cs : List PNode),
      proxyData roots (PNode.node ⟨r, E.id⟩ cs) = valueAt E.vals 0) := by
  constructor
  · constructor
    · intro h
      obtain ⟨E', hE', hid, hacc⟩ := build_sound_list fs ncols 0 roots E.id h
      rwa [elems_id_inj roots hnd hE' hE hid] at hacc
    · intro h
      exact build_keep_complete_list fs ncols hk 0 roots E hE h
  · intro r cs
    have hf := findById_unique roots hnd E hE
    simp [proxyData, PNode.src, hf]

/-- Witness for C2 at a concrete input: A (id 1) is rejected by filter
text "A1" but has the accepted descendant A1, so it appears as a
placeholder and its proxy row displays A's own value "A". -/
theorem keep_soundness_witness :
    appearsIn 1 (rebuildTree fsScenarioKeep 1 treeScenario) = true ∧
    proxyData treeScenario (PNode.node ⟨0, 1⟩ []) = some "A" := by
  have h := keep_soundness fsScenarioKeep 1 treeScenario (by decide) (by decide)
      (SNode.node 1 [some "A"] [SNode.node 2 [some "A1"] [], SNode.node 3 [some "A2"] []])
      (by decide)
  exact ⟨h.1.mpr (by decide), h.2 0 []⟩

/-- C4 (counterexample): the claimed derived tree root → A → A1 is not
what promote-mode rebuildTree produces on the scenario source tree with
filter text "A1". -/
theorem scenario_counterexample :
    pIdForest (rebuildTree fsScenario 1 treeScenario) = [IdTree.node 2 []] ∧
    [IdTree.node 2 []] ≠ [IdTree.node 1 [IdTree.node 2 []]] := by decide

/-- C4 (amended): on the source tree root → \x7bA → \x7bA1, A2\x7d,
B → \x7bB1\x7d\x7d with case-insensitive filter text "A1" in promote
mode, rebuildTree promotes A1 directly under the root: the derived tree
is root → \x7bA1\x7d, with A, A2, B and B1 all pruned. -/
theorem scenario_result :
    rebuildTree fsScenario 1 treeScenario = [PNode.node ⟨0, 2⟩ []] := by decide

/-- C5 (counterexample): `setFilterRegExp` does not clear the stored
free-text filter — after `setFilterText "abc"` followed by
`setFilterRegExp`, the stored text is still "abc", not the cleared
value "". -/
theorem setFilter_exclusion_counterexample :
    (setFilterRegExp (setFilterText initialFilterState "abc" false false) rxAll).filter_text
      = "abc" ∧ ("abc" : String) ≠ "" :=
  ⟨rfl, by decide⟩

/-- C5 (amended): `setFilterText` clears the stored pattern;
`setFilterRegExp` leaves the stored text in place, but because
`filterAcceptsRow` gives the pattern priority whenever one is stored,
acceptance after either setter is decided solely by the filter most
recently set — the previously stored text (resp. pattern) has no effect
on acceptance. -/
theorem setFilter_priority (fs : FilterState) (text : String)
    (caseSensitive exactMatch : Bool) (rx : Regexp) (ncols : Nat)
    (vals : List (Option String)) :
    ((setFilterText fs text caseSensitive exactMatch).filter_regexp = none) ∧
    (filterAcceptsRow (setFilterRegExp (setFilterText fs text caseSensitive exactMatch) rx)
        ncols vals
      = filterAcceptsRow (setFilterRegExp fs rx) ncols vals) ∧
    (filterAcceptsRow (setFilterText (setFilterRegExp fs rx) text caseSensitive exactMatch)
        ncols vals
      = filterAcceptsRow (setFilterText fs text caseSensitive exactMatch) ncols vals) :=
  ⟨rfl, rfl, rfl⟩

/-- C7: rebuilding twice from an unchanged source and filter
configuration yields exactly the same derived tree as rebuilding once —
`rebuildTree` discards the previous proxy state, so its result depends
only on the source and the filter configuration. -/
theorem rebuild_idempotent (fs : FilterState) (ncols : Nat)
    (roots : List SNode) (s : ProxyState) :
    rebuildTreeS fs ncols roots (rebuildTreeS fs ncols roots s)
      = rebuildTreeS fs ncols roots s :=
  rfl

theorem buildList_append (fs : FilterState) (ncols : Nat) (xs ys : List SNode) :
    ∀ row, buildList fs ncols row (xs ++ ys)
      = buildList fs ncols row xs ++ buildList fs ncols (row + xs.length) ys := by
  induction xs with
  | nil => intro row; simp [buildList]
  | cons c cs ih =>
    intro row
    rw [List.cons_append, buildList, ih (row + 1), buildList]
    simp only [List.append_assoc, List.length_cons]
    have h2 : row + (cs.length + 1) = row + 1 + cs.length := by omega
    rw [h2]

/-- C3 (counterexample): with an always-true filter, prepending element A
(id 2) in front of the existing top-level element B (id 1) and running
the incremental insert handler appends A's proxy node after B's, while a
fresh rebuild lists A before B — the two derived trees differ in row
order. -/
theorem incremental_insert_counterexample :
    pIdForest (onRowsInserted fsEmpty 1 treeAfterInsert
        (rebuildTree fsEmpty 1 treeBeforeInsert) none 0 0)
      = [IdTree.node 1 [], IdTree.node 2 []] ∧
    pIdForest (rebuildTree fsEmpty 1 treeAfterInsert)
      = [IdTree.node 2 [], IdTree.node 1 []] ∧
    ([IdTree.node 1 [], IdTree.node 2 []] : List IdTree)
      ≠ [IdTree.node 2 [], IdTree.node 1 []] := by decide

/-- C3 (amended): the incremental insert handler reproduces a fresh
rebuild only in restricted situations; in particular, when a single
childless element is appended at the end of the top level, running the
handler on the previous derived tree gives exactly the tree a full
rebuild of the new source produces (for any filter configuration and in
both structural modes).  In general — insertion before existing
siblings, insertion of whole subtrees, or insertion under unmapped
parents — the handler's result differs from a full rebuild. -/
theorem incremental_insert_append_leaf (fs : FilterState) (ncols : Nat)
    (roots : List SNode) (i : Nat) (vals : List (Option String)) :
    onRowsInserted fs ncols (roots ++ [SNode.node i vals []])
        (rebuildTree fs ncols roots) none roots.length roots.length
      = rebuildTree fs ncols (roots ++ [SNode.node i vals []]) := by
  have hr : roots.length + 1 - roots.length = 1 := by omega
  have hnn : newInsertNodes fs ncols (roots ++ [SNode.node i vals []])
      roots.length roots.length
      = if filterAcceptsRow fs ncols vals then
          [PNode.node ⟨roots.length, i⟩ []] else [] := by
    rw [newInsertNodes, hr, List.range'_one]
    by_cases hacc : filterAcceptsRow fs ncols vals = true
    · simp [List.getElem?_concat_length, isRowAcceptedRecursively, anyAcceptedRec, hacc, SNode.id]
    · simp [List.getElem?_concat_length, isRowAcceptedRecursively, anyAcceptedRec,
        Bool.of_not_eq_true hacc]
  have hone : buildOne fs ncols roots.length (SNode.node i vals [])
      = if filterAcceptsRow fs ncols vals then
          [PNode.node ⟨roots.length, i⟩ []] else [] := by
    rw [buildOne]
    by_cases hacc : filterAcceptsRow fs ncols vals = true
    · rw [if_pos hacc, if_pos hacc, buildList]
    · rw [if_neg hacc, if_neg hacc]
      by_cases hk : fs.keep_parent_if_child_matches = true
      · rw [if_pos hk, if_neg (by rw [anyAcceptedRec]; exact Bool.false_ne_true)]
      · rw [if_neg hk, promoteList]
  have hrhs : rebuildTree fs ncols (roots ++ [SNode.node i vals []])
      = rebuildTree fs ncols roots
        ++ buildOne fs ncols roots.length (SNode.node i vals []) := by
    rw [rebuildTree, rebuildTree, buildList_append fs ncols roots _ 0]
    rw [Nat.zero_add, buildList, buildList, List.append_nil]
  simp only [onRowsInserted]
  rw [hnn, hrhs, hone]

/-- C6: with a pattern filter set, `filterAcceptsRow` accepts exactly
when some designated column holds a (non-null, non-empty) value matched
by the pattern whose first capture also satisfies the capture callback
whenever one is set; a column whose capture fails the callback is
skipped, and the element is still accepted if any other designated
column yields a match whose capture passes. -/
theorem capture_refinement_acceptance (fs : FilterState) (ncols : Nat) (rx : Regexp)
    (vals : List (Option String)) (hrx : fs.filter_regexp = some rx) :
    filterAcceptsRow fs ncols vals = true ↔
      ∃ col ∈ columnIndices fs ncols, ∃ s, valueAt vals col = some s ∧ s ≠ "" ∧
        regex_match rx s = true ∧
        ∀ cb, fs.capture_filter_callback = some cb →
          cb (regex_capture rx s 1) = true := by
  rw [filterAcceptsRow, hrx]
  show acceptsByRegexp fs ncols rx vals = true ↔ _
  rw [acceptsByRegexp, List.any_eq_true]
  constructor
  · rintro ⟨col, hcol, hb⟩
    cases hv : valueAt vals col with
    | none => simp [hv] at hb
    | some s =>
      simp only [hv] at hb
      simp only [Bool.and_eq_true, bne_iff_ne] at hb
      obtain ⟨⟨hs, hm⟩, hcb⟩ := hb
      refine ⟨col, hcol, s, hv, hs, hm, ?_⟩
      intro cb hc
      simp only [hc] at hcb
      exact hcb
  · rintro ⟨col, hcol, s, hv, hs, hm, hcb⟩
    refine ⟨col, hcol, ?_⟩
    cases hc : fs.capture_filter_callback with
    | none => simp [hv, hs, hm, hc]
    | some cb => simp [hv, hs, hm, hc, hcb cb hc]

/-- Witness for C6 at a concrete input: with columns [0, 1], the
match-all pattern, and a callback accepting only the capture "ok",
column 0 matches but its capture "bad" fails the callback, while column
1 matches with capture "ok" — so the row is accepted. -/
theorem capture_refinement_acceptance_witness :
    fsCapture.filter_regexp = some rxAll ∧
    filterAcceptsRow fsCapture 2 [some "bad", some "ok"] = true :=
  ⟨rfl,
   (capture_refinement_acceptance fsCapture 2 rxAll [some "bad", some "ok"] rfl).mpr
     ⟨1, by decide, "ok", rfl, by decide, rfl, fun cb hcb => by
        obtain rfl : (fun o => o == some "ok") = cb := Option.some.inj hcb
        decide⟩⟩

theorem idxOfAux_spec (l : List PNode) (p : PNode) (h : p ∈ l) :
    ∃ n, idxOfAux l p = some n ∧ l[n]? = some p := by
  induction l with
  | nil => cases h
  | cons c cs ih =>
    rw [idxOfAux]
    by_cases hc : PNode.beq c p = true
    · rw [if_pos hc]
      have hce : c = p := (pnodeBeq_iff c p).mp hc
      exact ⟨0, rfl, by simp [hce]⟩
    · rw [if_neg hc]
      have hp : p ∈ cs := by
        rcases List.mem_cons.mp h with h' | h'
        · exact absurd ((pnodeBeq_iff c p).mpr h'.symm) hc
        · exact h'
      obtain ⟨n, h1, h2⟩ := ih hp
      exact ⟨n + 1, by rw [h1]; rfl, by simpa using h2⟩

theorem childAt_rowOf {q p : PNode} (h : p ∈ q.children) :
    childAt q (rowOf p q) = some p := by
  obtain ⟨n, h1, h2⟩ := idxOfAux_spec q.children p h
  rw [childAt, rowOf, h1]
  simpa using h2

/-- C9: after each engine operation — a full rebuild, an incremental
insert, or an incremental remove — every proxy node P lying in the child
list of a node Q reachable from the proxy root satisfies
`childAt Q (rowOf P Q) = P`: a node's reported row (its position among
its parent's children, Python `list.index`) addresses the node itself,
so parent/child links and row indices are mutually consistent. -/
theorem row_index_consistency (fs : FilterState) (ncols : Nat) (roots : List SNode)
    (proxy : List PNode) (parent : Option MIdx) (start fin : Nat) (Q P : PNode) :
    (Q ∈ allPNodes (rebuildTree fs ncols roots) → P ∈ Q.children →
      childAt Q (rowOf P Q) = some P) ∧
    (Q ∈ allPNodes (onRowsInserted fs ncols roots proxy parent start fin) →
      P ∈ Q.children → childAt Q (rowOf P Q) = some P) ∧
    (Q ∈ allPNodes (onRowsRemoved proxy parent start fin) → P ∈ Q.children →
      childAt Q (rowOf P Q) = some P) :=
  ⟨fun _ h => childAt_rowOf h, fun _ h => childAt_rowOf h, fun _ h => childAt_rowOf h⟩

/-- Witness for C9 at a concrete input: in the unfiltered rebuild of the
scenario tree, node A (reachable from the root) holds child A1 at the
row A1 reports. -/
theorem row_index_consistency_witness :
    PNode.node ⟨0, 1⟩ [PNode.node ⟨0, 2⟩ [], PNode.node ⟨1, 3⟩ []]
        ∈ allPNodes (rebuildTree fsEmpty 1 treeScenario) ∧
    childAt (PNode.node ⟨0, 1⟩ [PNode.node ⟨0, 2⟩ [], PNode.node ⟨1, 3⟩ []])
        (rowOf (PNode.node ⟨0, 2⟩ [])
          (PNode.node ⟨0, 1⟩ [PNode.node ⟨0, 2⟩ [], PNode.node ⟨1, 3⟩ []]))
      = some (PNode.node ⟨0, 2⟩ []) :=
  ⟨by decide,
   (row_index_consistency fsEmpty 1 treeScenario [] none 0 0
      (PNode.node ⟨0, 1⟩ [PNode.node ⟨0, 2⟩ [], PNode.node ⟨1, 3⟩ []])
      (PNode.node ⟨0, 2⟩ [])).1 (by decide) (by decide)⟩

mutual

theorem build_mirror_one (fs : FilterState) (ncols : Nat)
    (hAll : ∀ v, filterAcceptsRow fs ncols v = true) :
    ∀ (row : Nat) (c : SNode), pIdForest (buildOne fs ncols row c) = [srcIdTree c]
  | row, .node cid v cs => by
    rw [buildOne, if_pos (hAll v)]
    rw [pIdForest, pIdForest, pIdTree, srcIdTree]
    rw [build_mirror_list fs ncols hAll 0 cs]

theorem build_mirror_list (fs : FilterState) (ncols : Nat)
    (hAll : ∀ v, filterAcceptsRow fs ncols v = true) :
    ∀ (row : Nat) (cs : List SNode), pIdForest (buildList fs ncols row cs) = srcIdForest cs
  | _row, [] => by rw [buildList, pIdForest, srcIdForest]
  | row, c :: cs => by
    rw [buildList, pIdForest_append, build_mirror_one fs ncols hAll row c,
        build_mirror_list fs ncols hAll (row + 1) cs, srcIdForest]
    rfl

end

/-- C10: with no pattern filter and empty filter text, `filterAcceptsRow`
accepts every valid source index, and `rebuildTree` (in either
structural mode, since the keep-parent flag is irrelevant when every row
is accepted) produces exactly one proxy node per source element with the
same parent/child structure and the same sibling order as the source. -/
theorem empty_filter_mirrors (fs : FilterState) (ncols : Nat) (roots : List SNode)
    (hrx : fs.filter_regexp = none) (ht : fs.filter_text = "") :
    (∀ v, filterAcceptsRow fs ncols v = true) ∧
    pIdForest (rebuildTree fs ncols roots) = srcIdForest roots := by
  have hAll : ∀ v, filterAcceptsRow fs ncols v = true := by
    intro v
    rw [filterAcceptsRow, hrx]
    show acceptsByText fs ncols v = true
    rw [acceptsByText, if_pos ht]
  exact ⟨hAll, build_mirror_list fs ncols hAll 0 roots⟩

/-- Witness for C10 at a concrete input, in both structural modes. -/
theorem empty_filter_mirrors_witness :
    pIdForest (rebuildTree fsEmpty 1 treeScenario) = srcIdForest treeScenario ∧
    pIdForest (rebuildTree (setKeepParentIfChildMatches fsEmpty true) 1 treeScenario)
      = srcIdForest treeScenario ∧
    filterAcceptsRow fsEmpty 1 [none] = true :=
  ⟨(empty_filter_mirrors fsEmpty 1 treeScenario rfl rfl).2,
   (empty_filter_mirrors (setKeepParentIfChildMatches fsEmpty true) 1 treeScenario rfl rfl).2,
   (empty_filter_mirrors fsEmpty 1 treeScenario rfl rfl).1 [none]⟩

theorem pyLe_trans (col : Nat) (a b c : SNode) (h1 : pyLe col a b = true)
    (h2 : pyLe col b c = true) : pyLe col a c = true := by
  simp only [pyLe, decide_eq_true_eq] at h1 h2 ⊢
  exact le_trans h1 h2

theorem pyLe_total (col : Nat) (a b : SNode) : pyLe col a b || pyLe col b a := by
  simp only [pyLe, Bool.or_eq_true, decide_eq_true_eq]
  exact le_total _ _

/-- Two permutations of the same elements, both sorted under the string
key comparison, are equal when no two elements share a key. -/
theorem sorted_perm_eq (col : Nat) :
    ∀ (l₁ l₂ : List SNode), l₁.Perm l₂ →
      List.Pairwise (fun a b => pyLe col a b = true) l₁ →
      List.Pairwise (fun a b => pyLe col a b = true) l₂ →
      (l₁.map (fun e => sortKey e.vals col)).Nodup → l₁ = l₂ := by
  intro l₁
  induction l₁ with
  | nil =>
    intro l₂ hp _ _ _
    exact (List.Perm.eq_nil hp.symm).symm
  | cons a t₁ ih =>
    intro l₂ hp hs₁ hs₂ hnd
    cases l₂ with
    | nil => exact absurd (List.Perm.eq_nil hp) (by simp)
    | cons b t₂ =>
      by_cases hab : a = b
      · subst hab
        have hp' : t₁.Perm t₂ := hp.cons_inv
        rw [List.map_cons] at hnd
        rw [ih t₂ hp' hs₁.of_cons hs₂.of_cons (List.nodup_cons.mp hnd).2]
      · exfalso
        have hat2 : a ∈ t₂ := by
          rcases List.mem_cons.mp (hp.subset (List.mem_cons_self a t₁)) with h | h
          · exact absurd h hab
          · exact h
        have hbt1 : b ∈ t₁ := by
          rcases List.mem_cons.mp (hp.symm.subset (List.mem_cons_self b t₂)) with h | h
          · exact absurd h.symm hab
          · exact h
        have h1 : pyLe col a b = true := (List.pairwise_cons.mp hs₁).1 b hbt1
        have h2 : pyLe col b a = true := (List.pairwise_cons.mp hs₂).1 a hat2
        have hk : sortKey b.vals col = sortKey a.vals col := by
          simp only [pyLe, decide_eq_true_eq] at h1 h2
          exact le_antisymm h2 h1
        rw [List.map_cons] at hnd
        exact (List.nodup_cons.mp hnd).1
          (hk ▸ List.mem_map_of_mem (fun e => sortKey e.vals col) hbt1)

/-- C8: after a flat invalidate with ascending order, the flattened
sequence is non-decreasing under string comparison of the display values
at the sort column; and with pairwise-distinct keys the descending
sequence is the exact reverse of the ascending one. -/
theorem flat_sort_order (roots : List SNode) (col : Nat) :
    List.Pairwise (fun a b => pyLe col a b = true) (sortFlat roots col false) ∧
    (((collectAll roots).map (fun e => sortKey e.vals col)).Nodup →
      sortFlat roots col true = (sortFlat roots col false).reverse) := by
  have hsorted : ∀ l : List SNode,
      List.Pairwise (fun a b => pyLe col a b = true) (List.mergeSort l (pyLe col)) :=
    fun l =>
      (List.sorted_mergeSort (pyLe_trans col) (pyLe_total col) l).imp (fun h => h)
  constructor
  · exact hsorted (collectAll roots)
  · intro hnd
    show (List.mergeSort (collectAll roots).reverse (pyLe col)).reverse
      = (List.mergeSort (collectAll roots) (pyLe col)).reverse
    congr 1
    apply sorted_perm_eq col
    · exact (List.mergeSort_perm _ _).trans
        ((List.reverse_perm _).trans (List.mergeSort_perm _ _).symm)
    · exact hsorted _
    · exact hsorted _
    · exact ((((List.mergeSort_perm _ _).trans (List.reverse_perm _)).map _).nodup_iff).mpr hnd

/-- Witness for C8 at a concrete input: the scenario tree's display
values are pairwise distinct, so the descending flattened order is the
reverse of the ascending one. -/
theorem flat_sort_order_witness :
    ((collectAll treeScenario).map (fun e => sortKey e.vals 0)).Nodup ∧
    sortFlat treeScenario 0 true = (sortFlat treeScenario 0 false).reverse :=
  ⟨by decide, (flat_sort_order treeScenario 0).2 (by decide)⟩
